import Mathlib

/-!
Verification of the batch-lookup engine of the ipinfo client library
(source file src/ipinfo.rs). The Rust code is shallowly embedded:

- the LRU cache (crate lru::LruCache) is a capacity plus a list of
  key-value entries in most-recently-used-first order; get moves the
  found entry to the front, put inserts at the front and truncates to
  capacity;
- HashMap values in the source become association lists, with
  HashMap::get of the source as assocGet and HashMap::insert as mapInsert;
- the network transport (reqwest) is an external collaborator, modelled
  as a function from the posted miss list to an abstract response;
- panics (unwrap and expect in the source) are modelled by Option, with
  none standing for a panic.
-/

set_option maxHeartbeats 1000000
set_option linter.unnecessarySeqFocus false
set_option linter.unusedVariables false

/-- Modelled from the spec: a country flag is an emoji glyph plus a unicode
code-point sequence, both strings (the CountryFlag type is declared outside
the provided source file). -/
structure CountryFlag where
  emoji : String
  unicode : String
deriving DecidableEq

/-- Modelled from the spec: a currency is an ISO code plus a symbol, both
strings (the CountryCurrency type is declared outside the provided source
file). -/
structure CountryCurrency where
  code : String
  symbol : String
deriving DecidableEq

/-- Modelled from the spec: a continent is a code plus a name, both strings
(the Continent type is declared outside the provided source file). -/
structure Continent where
  code : String
  name : String
deriving DecidableEq

/-- Modelled from the spec: the Detail Record of one resolved address, with
the wire fields of section 6 and the four derived fields plus is-EU of
section 3 (the IpDetails type is declared outside the provided source file). -/
structure IpDetails where
  ip : String
  hostname : Option String
  city : String
  region : String
  country : String
  loc : String
  postal : Option String
  timezone : Option String
  country_name : Option String
  is_eu : Option Bool
  country_flag : Option CountryFlag
  country_currency : Option CountryCurrency
  continent : Option Continent
deriving DecidableEq

/-- Modelled from the spec: the error kinds of section 7 (rate-limit,
request, transport) plus a parse-failure kind for response-decoding
errors; the IpErrorKind type is declared outside the provided source file,
and the source uses the constructor names RateLimitExceededError and
IpRequestError. -/
inductive IpErrorKind where
  | RateLimitExceededError
  | IpRequestError
  | TransportError
  | ParseError
deriving DecidableEq

/-- Modelled from the spec: an error value carrying its kind and an optional
embedded message (the IpError type is declared outside the provided source
file). -/
structure IpError where
  kind : IpErrorKind
  msg : Option String
deriving DecidableEq

/-- First value bound to the given key in an association list; this embeds
HashMap::get of the source (and the search step of LruCache::get). -/
def assocGet {α : Type} : List (String × α) → String → Option α
  | [], _ => none
  | e :: rest, k => if e.1 = k then some e.2 else assocGet rest k

/-- Removal of a key from an association list; used to embed moving an
entry to the front of the LRU order and HashMap::insert replacement. -/
def assocRemove {α : Type} : List (String × α) → String → List (String × α)
  | [], _ => []
  | e :: rest, k => if e.1 = k then assocRemove rest k else e :: assocRemove rest k

/-- The bounded recency cache, embedding lru::LruCache of the source:
entries are in most-recently-used-first order. -/
structure LruCache where
  capacity : Nat
  entries : List (String × IpDetails)
deriving DecidableEq

/-- LruCache::get of the lru crate as used at the partition step: on a hit
it returns the value and moves the entry to the front of the recency
order; on a miss the cache is unchanged. -/
def LruCache.get (c : LruCache) (k : String) : Option IpDetails × LruCache :=
  match assocGet c.entries k with
  | none => (none, c)
  | some v => (some v, ⟨c.capacity, (k, v) :: assocRemove c.entries k⟩)

/-- Value stored under a key, without touching the recency order (used to
state properties about cache contents). -/
def LruCache.peek (c : LruCache) (k : String) : Option IpDetails :=
  assocGet c.entries k

/-- LruCache::put of the lru crate as used at the cache-update step:
insert or refresh at the front of the recency order, evicting the
least-recently-used entry when capacity is exceeded. -/
def LruCache.put (c : LruCache) (k : String) (v : IpDetails) : LruCache :=
  ⟨c.capacity, ((k, v) :: assocRemove c.entries k).take c.capacity⟩

/-- The engine state: token, the LRU cache and the five reference tables
(fields countries, eu, country_flags, country_currencies, continents of
struct IpInfo in the source; url and client are external collaborators). -/
structure IpInfo where
  token : Option String
  cache : LruCache
  countries : List (String × String)
  eu : List String
  country_flags : List (String × CountryFlag)
  country_currencies : List (String × CountryCurrency)
  continents : List (String × Continent)
deriving DecidableEq

/-- Abstract outcome of the HTTP round-trip for one posted miss list,
covering every branch the source distinguishes: send failing (transport
or timeout), status 429, another non-success status, an undecodable body,
a body carrying an explicit error field, or a decoded mapping from
address to raw record. -/
inductive BatchResponse where
  | transportErr
  | tooManyRequests
  | httpError (status : Nat)
  | parseError
  | errorBody (msg : String)
  | records (m : List (String × IpDetails))

/-- The partition step of IpInfo::lookup (the for_each over ips): probe the
cache for each requested address in order; hits are cloned into the hit
list (bumping recency), misses are appended to the miss list. -/
def partition (cache : LruCache) : List String → List IpDetails × List String × LruCache
  | [] => ([], [], cache)
  | x :: xs =>
    match cache.get x with
    | (some d, c) =>
      let r := partition c xs
      (d :: r.1, r.2.1, r.2.2)
    | (none, c) =>
      let r := partition c xs
      (r.1, x :: r.2.1, r.2.2)

/-- The enrichment of one parsed record (body of the for loop over
details): when country is non-empty, country_name, is_eu, country_flag,
country_currency and continent are set from the reference tables; each
table access unwraps, so a missing entry is a panic, modelled as none. -/
def enrichOne (st : IpInfo) (d : IpDetails) : Option IpDetails :=
  if d.country = "" then some d
  else
    match assocGet st.countries d.country, assocGet st.country_flags d.country,
        assocGet st.country_currencies d.country, assocGet st.continents d.country with
    | some name, some flag, some cur, some cont =>
      some { d with
              country_name := some name
              is_eu := some (st.eu.contains d.country)
              country_flag := some flag
              country_currency := some cur
              continent := some cont }
    | _, _, _, _ => none

/-- Enrichment of the whole decoded mapping, entry by entry; none when any
record panics. -/
def enrichAll (st : IpInfo) : List (String × IpDetails) → Option (List (String × IpDetails))
  | [] => some []
  | e :: rest =>
    match enrichOne st e.2 with
    | none => none
    | some d =>
      match enrichAll st rest with
      | none => none
      | some rest2 => some ((e.1, d) :: rest2)

/-- The cache-update step: put every enriched record into the cache keyed
by its response key (details.iter().for_each over the mapping). -/
def cacheUpdate (c : LruCache) (m : List (String × IpDetails)) : LruCache :=
  m.foldl (fun acc e => acc.put e.1 e.2) c

/-- HashMap::insert of the source: replace any entry with the given key. -/
def mapInsert (r : List (String × IpDetails)) (k : String) (v : IpDetails) :
    List (String × IpDetails) :=
  (k, v) :: assocRemove r k

/-- The merge step: insert every cache hit into the result mapping keyed by
its ip field (hits.iter().for_each at the end of lookup). -/
def mergeHits (hits : List IpDetails) (r : List (String × IpDetails)) :
    List (String × IpDetails) :=
  hits.foldl (fun acc h => mapInsert acc h.ip h) r

/-- IpInfo::lookup. The transport argument stands for the reqwest client:
it is applied to the miss list that the source posts to the batch
endpoint (the source always sends, even when the miss list is empty).
The outer Option models a panic during enrichment; the Except models the
Result return value. The returned IpInfo carries the updated cache. -/
def IpInfo.lookup (st : IpInfo) (transport : List String → BatchResponse)
    (ips : List String) : Option (Except IpError (List (String × IpDetails)) × IpInfo) :=
  let p := partition st.cache ips
  let hits := p.1
  let misses := p.2.1
  let st1 : IpInfo := { st with cache := p.2.2 }
  match transport misses with
  | .transportErr => some (.error ⟨.TransportError, none⟩, st1)
  | .tooManyRequests => some (.error ⟨.RateLimitExceededError, none⟩, st1)
  | .httpError status => some (.error ⟨.IpRequestError, some (toString status)⟩, st1)
  | .parseError => some (.error ⟨.ParseError, none⟩, st1)
  | .errorBody msg => some (.error ⟨.IpRequestError, some msg⟩, st1)
  | .records m =>
    match enrichAll st m with
    | none => none
    | some enriched =>
      some (.ok (mergeHits hits enriched),
        { st1 with cache := cacheUpdate st1.cache enriched })

/-- IpInfoConfig: the construction-time configuration recognized by the
source (file-path overrides are represented by the dataset inputs below). -/
structure IpInfoConfig where
  token : Option String
  timeout : Nat
  cache_size : Nat
deriving DecidableEq

/-- The external inputs consumed by IpInfo::new: whether the reqwest client
builder succeeds, and the five reference datasets as parsed, where none
stands for a malformed or unreadable dataset (the expect calls panic). -/
structure NewInputs where
  clientOk : Bool
  countries : Option (List (String × String))
  eu : Option (List String)
  country_flags : Option (List (String × CountryFlag))
  country_currencies : Option (List (String × CountryCurrency))
  continents : Option (List (String × Continent))

/-- IpInfo::new: the client builder error propagates as the Result error;
NonZeroUsize::new(cache_size).unwrap() panics when cache_size is zero;
each dataset load panics (expect) when the dataset is malformed or
unreadable. The outer Option models panics, the Except the Result. -/
def IpInfo.new (config : IpInfoConfig) (inp : NewInputs) :
    Option (Except IpError IpInfo) :=
  if inp.clientOk = false then some (.error ⟨.TransportError, none⟩)
  else if config.cache_size = 0 then none
  else
    match inp.countries, inp.eu, inp.country_flags, inp.country_currencies, inp.continents with
    | some cs, some eu, some fl, some cu, some co =>
      some (.ok
        { token := config.token
          cache := ⟨config.cache_size, []⟩
          countries := cs
          eu := eu
          country_flags := fl
          country_currencies := cu
          continents := co })
    | _, _, _, _, _ => none

/-- Keys of an association list, in order. -/
def mapKeys {α : Type} (m : List (String × α)) : List String :=
  m.map Prod.fst

/-- Every cached entry stores a record whose ip field equals its key. -/
def cacheIpKey (c : LruCache) : Prop :=
  ∀ e ∈ c.entries, (e : String × IpDetails).2.ip = e.1

/-- A raw wire record: the four derived fields and is-EU are absent, as in
the decoded response body (the wire contract of section 6 carries none of
them). -/
def rawRecord (d : IpDetails) : Prop :=
  d.country_name = none ∧ d.is_eu = none ∧ d.country_flag = none ∧
    d.country_currency = none ∧ d.continent = none

/-- The derived-field invariant of section 3: the derived fields are
populated if and only if country is non-empty, and when populated they
agree with the reference tables (is-EU being membership of the code in
the EU set). -/
def derivedOk (st : IpInfo) (d : IpDetails) : Prop :=
  if d.country = "" then
    d.country_name = none ∧ d.is_eu = none ∧ d.country_flag = none ∧
      d.country_currency = none ∧ d.continent = none
  else
    d.country_name = assocGet st.countries d.country ∧
      d.country_name.isSome ∧
      d.is_eu = some (st.eu.contains d.country) ∧
      d.country_flag = assocGet st.country_flags d.country ∧
      d.country_flag.isSome ∧
      d.country_currency = assocGet st.country_currencies d.country ∧
      d.country_currency.isSome ∧
      d.continent = assocGet st.continents d.country ∧
      d.continent.isSome

instance decCacheIpKey (c : LruCache) : Decidable (cacheIpKey c) := by
  unfold cacheIpKey
  infer_instance

instance decRawRecord (d : IpDetails) : Decidable (rawRecord d) := by
  unfold rawRecord
  infer_instance

instance decDerivedOk (st : IpInfo) (d : IpDetails) : Decidable (derivedOk st d) := by
  unfold derivedOk
  infer_instance

/-- A raw wire record with the given ip and country and every optional
field absent (used for concrete test states). -/
def rawIp (i c : String) : IpDetails :=
  { ip := i, hostname := none, city := "", region := "", country := c, loc := "",
    postal := none, timezone := none, country_name := none, is_eu := none,
    country_flag := none, country_currency := none, continent := none }

/-- A concrete engine state over two-country reference tables and the given
cache (used for concrete test states). -/
def baseSt (cache : LruCache) : IpInfo :=
  { token := none
    cache := cache
    countries := [("US", "United States"), ("DE", "Germany")]
    eu := ["DE"]
    country_flags := [("US", ⟨"uf", "uu"⟩), ("DE", ⟨"df", "du"⟩)]
    country_currencies := [("US", ⟨"USD", "usd"⟩), ("DE", ⟨"EUR", "eur"⟩)]
    continents := [("US", ⟨"NA", "North America"⟩), ("DE", ⟨"EU", "Europe"⟩)] }

/-- Enrichment outcome for a record with country US over the baseSt tables. -/
def enrichUS (d : IpDetails) : IpDetails :=
  { d with
      country_name := some "United States"
      is_eu := some false
      country_flag := some ⟨"uf", "uu"⟩
      country_currency := some ⟨"USD", "usd"⟩
      continent := some ⟨"NA", "North America"⟩ }

def rawUS : IpDetails := rawIp "8.8.8.8" "US"

def rawDE : IpDetails := rawIp "9.9.9.9" "DE"

def enrichedUS : IpDetails := enrichUS rawUS

/-- Enrichment outcome for rawDE over the baseSt tables. -/
def enrichedDE : IpDetails :=
  { rawDE with
      country_name := some "Germany"
      is_eu := some true
      country_flag := some ⟨"df", "du"⟩
      country_currency := some ⟨"EUR", "eur"⟩
      continent := some ⟨"EU", "Europe"⟩ }

/-- State whose cache already holds the enriched record for 8.8.8.8. -/
def stC1 : IpInfo := baseSt ⟨2, [("8.8.8.8", enrichedUS)]⟩

def mC1 : List (String × IpDetails) := [("9.9.9.9", rawDE)]

def trC1 : List String → BatchResponse := fun _ => BatchResponse.records mC1

def rC1 : List (String × IpDetails) := [("8.8.8.8", enrichedUS), ("9.9.9.9", enrichedDE)]

def st2C1 : IpInfo := baseSt ⟨2, [("9.9.9.9", enrichedDE), ("8.8.8.8", enrichedUS)]⟩

def trEmpty : List String → BatchResponse := fun _ => BatchResponse.records []

def trFail : List String → BatchResponse := fun _ => BatchResponse.transportErr

def rC2 : List (String × IpDetails) := [("8.8.8.8", enrichedUS)]

/-- Cache state after the failing call of the C4 scenario: probing 8.8.8.8
as a hit moved it to the front of the recency order. -/
def stC4after : IpInfo := baseSt ⟨2, [("8.8.8.8", enrichedUS), ("9.9.9.9", enrichedDE)]⟩

def rawA : IpDetails := rawIp "1.1.1.1" "US"

def rawB : IpDetails := rawIp "2.2.2.2" "US"

def rawC : IpDetails := rawIp "3.3.3.3" "US"

def enrA : IpDetails := enrichUS rawA

def enrB : IpDetails := enrichUS rawB

def enrC : IpDetails := enrichUS rawC

/-- Empty cache of capacity two. -/
def stK : IpInfo := baseSt ⟨2, []⟩

def trA : List String → BatchResponse := fun _ => BatchResponse.records [("1.1.1.1", rawA)]

def trB : List String → BatchResponse := fun _ => BatchResponse.records [("2.2.2.2", rawB)]

def trC : List String → BatchResponse := fun _ => BatchResponse.records [("3.3.3.3", rawC)]

def stKA : IpInfo := baseSt ⟨2, [("1.1.1.1", enrA)]⟩

def stKAB : IpInfo := baseSt ⟨2, [("2.2.2.2", enrB), ("1.1.1.1", enrA)]⟩

def stKABbump : IpInfo := baseSt ⟨2, [("1.1.1.1", enrA), ("2.2.2.2", enrB)]⟩

def stKC : IpInfo := baseSt ⟨2, [("3.3.3.3", enrC), ("1.1.1.1", enrA)]⟩

def cfg0 : IpInfoConfig := ⟨none, 3, 0⟩

def cfgOk : IpInfoConfig := ⟨none, 3, 2⟩

def inpGood : NewInputs :=
  ⟨true, some [("US", "United States")], some [], some [], some [], some []⟩

def inpBadCountries : NewInputs := ⟨true, none, some [], some [], some [], some []⟩

def inpBadContinents : NewInputs :=
  ⟨true, some [("US", "United States")], some [], some [], some [], none⟩

/-- The engine state produced by a successful construction from cfgOk and
inpGood. -/
def stNew : IpInfo :=
  { token := none, cache := ⟨2, []⟩, countries := [("US", "United States")],
    eu := [], country_flags := [], country_currencies := [], continents := [] }

theorem assocGet_assocRemove {α : Type} (l : List (String × α)) (k a : String) :
    assocGet (assocRemove l k) a = if a = k then none else assocGet l a := by
  induction l with
  | nil => simp [assocRemove, assocGet]
  | cons e rest ih =>
    simp only [assocRemove, assocGet]
    by_cases hek : e.1 = k <;> by_cases hea : e.1 = a <;> by_cases hak : a = k <;>
      simp_all [assocGet]

theorem assocGet_mem {α : Type} {l : List (String × α)} {k : String} {v : α}
    (h : assocGet l k = some v) : (k, v) ∈ l := by
  induction l with
  | nil => simp [assocGet] at h
  | cons e rest ih =>
    by_cases hek : e.1 = k
    · simp only [assocGet, if_pos hek] at h
      have hv : e.2 = v := Option.some.inj h
      have he : e = (k, v) := Prod.ext hek hv
      rw [← he]
      exact List.mem_cons_self _ _
    · simp only [assocGet, if_neg hek] at h
      exact List.mem_cons_of_mem _ (ih h)

theorem assocRemove_length_le {α : Type} (l : List (String × α)) (k : String) :
    (assocRemove l k).length ≤ l.length := by
  induction l with
  | nil => simp [assocRemove]
  | cons e rest ih =>
    by_cases hek : e.1 = k
    · simp only [assocRemove, if_pos hek]
      exact Nat.le_succ_of_le ih
    · simp only [assocRemove, if_neg hek, List.length_cons]
      omega

theorem assocRemove_length_lt {α : Type} {l : List (String × α)} {k : String} {v : α}
    (h : assocGet l k = some v) : (assocRemove l k).length < l.length := by
  induction l with
  | nil => simp [assocGet] at h
  | cons e rest ih =>
    by_cases hek : e.1 = k
    · simp only [assocRemove, if_pos hek, List.length_cons]
      exact Nat.lt_succ_of_le (assocRemove_length_le rest k)
    · simp only [assocRemove, if_neg hek, List.length_cons]
      have := ih (by simpa [assocGet, hek] using h)
      omega

theorem mem_assocRemove {α : Type} {l : List (String × α)} {k : String} {x : String × α}
    (h : x ∈ assocRemove l k) : x ∈ l := by
  induction l with
  | nil => simp [assocRemove] at h
  | cons e rest ih =>
    by_cases hek : e.1 = k
    · simp only [assocRemove, if_pos hek] at h
      exact List.mem_cons_of_mem _ (ih h)
    · simp only [assocRemove, if_neg hek] at h
      rcases List.mem_cons.mp h with h1 | h2
      · exact h1 ▸ List.mem_cons_self _ _
      · exact List.mem_cons_of_mem _ (ih h2)

theorem peek_get_snd (c : LruCache) (k a : String) :
    (c.get k).2.peek a = c.peek a := by
  unfold LruCache.get
  cases hg : assocGet c.entries k with
  | none => rfl
  | some v =>
    show LruCache.peek ⟨c.capacity, (k, v) :: assocRemove c.entries k⟩ a = c.peek a
    unfold LruCache.peek
    by_cases hak : a = k
    · subst hak
      rw [assocGet, if_pos rfl]
      exact hg.symm
    · rw [assocGet, if_neg (fun h => hak h.symm), assocGet_assocRemove, if_neg hak]

theorem get_fst (c : LruCache) (k : String) : (c.get k).1 = c.peek k := by
  unfold LruCache.get LruCache.peek
  cases hg : assocGet c.entries k <;> rfl

theorem mem_get_snd {c : LruCache} {k : String} {x : String × IpDetails}
    (h : x ∈ (c.get k).2.entries) : x ∈ c.entries := by
  unfold LruCache.get at h
  cases hg : assocGet c.entries k with
  | none => rw [hg] at h; exact h
  | some v =>
    rw [hg] at h
    rcases List.mem_cons.mp h with h1 | h2
    · subst h1; exact assocGet_mem hg
    · exact mem_assocRemove h2

theorem length_get_snd (c : LruCache) (k : String) :
    (c.get k).2.entries.length ≤ c.entries.length := by
  unfold LruCache.get
  cases hg : assocGet c.entries k with
  | none => exact le_refl _
  | some v =>
    show ((k, v) :: assocRemove c.entries k).length ≤ c.entries.length
    simp only [List.length_cons]
    exact Nat.succ_le_of_lt (assocRemove_length_lt hg)

theorem capacity_get_snd (c : LruCache) (k : String) :
    (c.get k).2.capacity = c.capacity := by
  unfold LruCache.get
  cases hg : assocGet c.entries k <;> rfl

theorem partition_peek (cache : LruCache) (ips : List String) (a : String) :
    (partition cache ips).2.2.peek a = cache.peek a := by
  induction ips generalizing cache with
  | nil => rfl
  | cons x xs ih =>
    unfold partition
    cases hg : cache.get x with
    | mk o c =>
      have hsnd : c.peek a = cache.peek a := by
        have h2 := peek_get_snd cache x a
        rw [hg] at h2
        exact h2
      cases o with
      | none =>
        show (partition c xs).2.2.peek a = cache.peek a
        rw [ih, hsnd]
      | some d =>
        show (partition c xs).2.2.peek a = cache.peek a
        rw [ih, hsnd]

theorem partition_hits (cache : LruCache) (ips : List String) :
    (partition cache ips).1 = ips.filterMap (fun a => cache.peek a) := by
  induction ips generalizing cache with
  | nil => rfl
  | cons x xs ih =>
    have hfst := get_fst cache x
    unfold partition
    cases hg : cache.get x with
    | mk o c =>
      rw [hg] at hfst
      have hpk : ∀ b, c.peek b = cache.peek b := by
        intro b
        have h2 := peek_get_snd cache x b
        rw [hg] at h2
        exact h2
      have hfg : (fun b => c.peek b) = fun b => cache.peek b := funext hpk
      cases o with
      | none =>
        show (partition c xs).1 = List.filterMap (fun b => cache.peek b) (x :: xs)
        rw [List.filterMap_cons, ← hfst, ih, hfg]
      | some d =>
        show d :: (partition c xs).1 = List.filterMap (fun b => cache.peek b) (x :: xs)
        rw [List.filterMap_cons, ← hfst, ih, hfg]

theorem partition_misses (cache : LruCache) (ips : List String) :
    (partition cache ips).2.1 = ips.filter (fun a => (cache.peek a).isNone) := by
  induction ips generalizing cache with
  | nil => rfl
  | cons x xs ih =>
    have hfst := get_fst cache x
    unfold partition
    cases hg : cache.get x with
    | mk o c =>
      rw [hg] at hfst
      have hpk : ∀ b, c.peek b = cache.peek b := by
        intro b
        have h2 := peek_get_snd cache x b
        rw [hg] at h2
        exact h2
      have hfg : (fun b => c.peek b) = fun b => cache.peek b := funext hpk
      cases o with
      | none =>
        show x :: (partition c xs).2.1 = List.filter (fun b => (cache.peek b).isNone) (x :: xs)
        rw [List.filter_cons, ← hfst, ih]
        simp only [hpk]
        simp
      | some d =>
        show (partition c xs).2.1 = List.filter (fun b => (cache.peek b).isNone) (x :: xs)
        rw [List.filter_cons, ← hfst, ih]
        simp only [hpk]
        simp

theorem partition_length (cache : LruCache) (ips : List String) :
    (partition cache ips).2.2.entries.length ≤ cache.entries.length := by
  induction ips generalizing cache with
  | nil => exact le_refl _
  | cons x xs ih =>
    unfold partition
    cases hg : cache.get x with
    | mk o c =>
      have hlen : c.entries.length ≤ cache.entries.length := by
        have h2 := length_get_snd cache x
        rw [hg] at h2
        exact h2
      cases o with
      | none =>
        show (partition c xs).2.2.entries.length ≤ cache.entries.length
        exact le_trans (ih c) hlen
      | some d =>
        show (partition c xs).2.2.entries.length ≤ cache.entries.length
        exact le_trans (ih c) hlen

theorem partition_capacity (cache : LruCache) (ips : List String) :
    (partition cache ips).2.2.capacity = cache.capacity := by
  induction ips generalizing cache with
  | nil => rfl
  | cons x xs ih =>
    unfold partition
    cases hg : cache.get x with
    | mk o c =>
      have hcap : c.capacity = cache.capacity := by
        have h2 := capacity_get_snd cache x
        rw [hg] at h2
        exact h2
      cases o with
      | none =>
        show (partition c xs).2.2.capacity = cache.capacity
        rw [ih, hcap]
      | some d =>
        show (partition c xs).2.2.capacity = cache.capacity
        rw [ih, hcap]

theorem partition_mem_entries {cache : LruCache} {ips : List String}
    {x : String × IpDetails} (h : x ∈ (partition cache ips).2.2.entries) :
    x ∈ cache.entries := by
  induction ips generalizing cache with
  | nil => exact h
  | cons y ys ih =>
    rw [partition] at h
    cases hg : cache.get y with
    | mk o c =>
      rw [hg] at h
      have hmem : ∀ z : String × IpDetails, z ∈ c.entries → z ∈ cache.entries := by
        intro z hz
        have h2 := @mem_get_snd cache y z
        rw [hg] at h2
        exact h2 hz
      cases o with
      | none => exact hmem _ (ih (by exact h))
      | some d => exact hmem _ (ih (by exact h))

theorem assocGet_isSome_iff {α : Type} (l : List (String × α)) (a : String) :
    (assocGet l a).isSome = true ↔ a ∈ mapKeys l := by
  induction l with
  | nil => simp [assocGet, mapKeys]
  | cons e rest ih =>
    by_cases hea : e.1 = a <;>
      simp [assocGet, hea, mapKeys, List.map_cons, List.mem_cons, ih] <;> tauto

theorem assocGet_mapInsert (r : List (String × IpDetails)) (k a : String) (v : IpDetails) :
    assocGet (mapInsert r k v) a = if a = k then some v else assocGet r a := by
  by_cases hak : a = k
  · subst hak
    simp [mapInsert, assocGet]
  · have hka : ¬ (k = a) := fun h => hak h.symm
    simp [mapInsert, assocGet, assocGet_assocRemove, hak, hka]

theorem mergeHits_get_isSome (hits : List IpDetails) (base : List (String × IpDetails))
    (a : String) :
    (assocGet (mergeHits hits base) a).isSome = true ↔
      (∃ h ∈ hits, IpDetails.ip h = a) ∨ (assocGet base a).isSome = true := by
  induction hits generalizing base with
  | nil => simp [mergeHits]
  | cons h0 t ih =>
    show (assocGet (mergeHits t (mapInsert base h0.ip h0)) a).isSome = true ↔ _
    rw [ih]
    by_cases hip : a = h0.ip
    · simp [assocGet_mapInsert, hip]
    · simp only [assocGet_mapInsert, if_neg hip, List.mem_cons]
      constructor
      · rintro (h1 | h2)
        · exact Or.inl ⟨h1.choose, Or.inr h1.choose_spec.1, h1.choose_spec.2⟩
        · exact Or.inr h2
      · rintro (⟨h, hm | hm, hipa⟩ | h2)
        · subst hm
          exact absurd hipa.symm hip
        · exact Or.inl ⟨h, hm, hipa⟩
        · exact Or.inr h2

theorem mergeHits_get_of_not_ip (hits : List IpDetails) (base : List (String × IpDetails))
    (a : String) (hno : ∀ h ∈ hits, IpDetails.ip h ≠ a) :
    assocGet (mergeHits hits base) a = assocGet base a := by
  induction hits generalizing base with
  | nil => rfl
  | cons h0 t ih =>
    show assocGet (mergeHits t (mapInsert base h0.ip h0)) a = _
    rw [ih _ (fun h hm => hno h (List.mem_cons_of_mem _ hm)), assocGet_mapInsert,
      if_neg (fun hh => hno h0 (List.mem_cons_self _ _) hh.symm)]

theorem mergeHits_get_of_ip (hits : List IpDetails) (base : List (String × IpDetails))
    (a : String) (v : IpDetails)
    (huni : ∀ h ∈ hits, IpDetails.ip h = a → h = v)
    (hex : ∃ h ∈ hits, IpDetails.ip h = a) :
    assocGet (mergeHits hits base) a = some v := by
  induction hits generalizing base with
  | nil =>
    rcases hex with ⟨h, hm, _⟩
    cases hm
  | cons h0 t ih =>
    show assocGet (mergeHits t (mapInsert base h0.ip h0)) a = some v
    by_cases hext : ∃ h ∈ t, IpDetails.ip h = a
    · exact ih _ (fun h hm => huni h (List.mem_cons_of_mem _ hm)) hext
    · have hno : ∀ h ∈ t, IpDetails.ip h ≠ a := by
        intro h hm hip
        exact hext ⟨h, hm, hip⟩
      rw [mergeHits_get_of_not_ip t _ a hno, assocGet_mapInsert]
      rcases hex with ⟨h, hm, hip⟩
      rcases List.mem_cons.mp hm with rfl | hmt
      · rw [if_pos hip.symm, huni h (List.mem_cons_self _ _) hip]
      · exact absurd hip (hno h hmt)

theorem enrichAll_get (st : IpInfo) {m enr : List (String × IpDetails)}
    (h : enrichAll st m = some enr) (a : String) :
    assocGet enr a = (assocGet m a).bind (enrichOne st) := by
  induction m generalizing enr with
  | nil =>
    cases h
    simp [assocGet]
  | cons e rest ih =>
    rw [enrichAll] at h
    cases hd : enrichOne st e.2 with
    | none =>
      rw [hd] at h
      exact Option.noConfusion h
    | some d =>
      rw [hd] at h
      cases hr : enrichAll st rest with
      | none =>
        rw [hr] at h
        exact Option.noConfusion h
      | some rest2 =>
        rw [hr] at h
        cases h
        by_cases hea : e.1 = a
        · subst hea
          simp [assocGet, hd]
        · simp [assocGet, hea, ih hr]

theorem enrichAll_keys (st : IpInfo) {m enr : List (String × IpDetails)}
    (h : enrichAll st m = some enr) : mapKeys enr = mapKeys m := by
  induction m generalizing enr with
  | nil => cases h; rfl
  | cons e rest ih =>
    rw [enrichAll] at h
    cases hd : enrichOne st e.2 with
    | none =>
      rw [hd] at h
      exact Option.noConfusion h
    | some d =>
      rw [hd] at h
      cases hr : enrichAll st rest with
      | none =>
        rw [hr] at h
        exact Option.noConfusion h
      | some rest2 =>
        rw [hr] at h
        cases h
        have hk := ih hr
        unfold mapKeys at hk ⊢
        simp only [List.map_cons]
        rw [hk]

theorem enrichAll_mem (st : IpInfo) {m enr : List (String × IpDetails)}
    (h : enrichAll st m = some enr) {x : String × IpDetails} (hx : x ∈ enr) :
    ∃ w, (x.1, w) ∈ m ∧ enrichOne st w = some x.2 := by
  induction m generalizing enr with
  | nil =>
    cases h
    cases hx
  | cons e rest ih =>
    rw [enrichAll] at h
    cases hd : enrichOne st e.2 with
    | none =>
      rw [hd] at h
      exact Option.noConfusion h
    | some d =>
      rw [hd] at h
      cases hr : enrichAll st rest with
      | none =>
        rw [hr] at h
        exact Option.noConfusion h
      | some rest2 =>
        rw [hr] at h
        cases h
        rcases List.mem_cons.mp hx with rfl | hx2
        · refine ⟨e.2, ?_, hd⟩
          show (e.1, e.2) ∈ e :: rest
          rw [Prod.mk.eta]
          exact List.mem_cons_self _ _
        · rcases ih hr hx2 with ⟨w, hw1, hw2⟩
          exact ⟨w, List.mem_cons_of_mem _ hw1, hw2⟩

theorem enrichAll_eq_none_iff (st : IpInfo) (m : List (String × IpDetails)) :
    enrichAll st m = none ↔ ∃ e ∈ m, enrichOne st (Prod.snd e) = none := by
  induction m with
  | nil => simp [enrichAll]
  | cons e rest ih =>
    cases hd : enrichOne st e.2 with
    | none =>
      simp only [enrichAll, hd]
      constructor
      · intro _
        exact ⟨e, List.mem_cons_self _ _, hd⟩
      · intro _
        trivial
    | some d =>
      cases hr : enrichAll st rest with
      | none =>
        have hex := ih.mp hr
        simp only [enrichAll, hd, hr]
        constructor
        · intro _
          rcases hex with ⟨x, hm, hx⟩
          exact ⟨x, List.mem_cons_of_mem _ hm, hx⟩
        · intro _
          trivial
      | some rest2 =>
        simp only [enrichAll, hd, hr]
        constructor
        · intro hcon
          exact Option.noConfusion hcon
        · rintro ⟨x, hm, hx⟩
          rcases List.mem_cons.mp hm with rfl | hmt
          · simp [hx] at hd
          · have hnone : enrichAll st rest = none := ih.mpr ⟨x, hmt, hx⟩
            rw [hnone] at hr
            exact Option.noConfusion hr

theorem enrichOne_derivedOk (st : IpInfo) {d0 d : IpDetails} (hraw : rawRecord d0)
    (h : enrichOne st d0 = some d) : derivedOk st d := by
  unfold enrichOne at h
  by_cases hc : d0.country = ""
  · rw [if_pos hc] at h
    cases h
    unfold derivedOk
    rw [if_pos hc]
    exact hraw
  · rw [if_neg hc] at h
    cases h1 : assocGet st.countries d0.country with
    | none =>
      rw [h1] at h
      exact Option.noConfusion h
    | some name =>
      rw [h1] at h
      cases h2 : assocGet st.country_flags d0.country with
      | none =>
        rw [h2] at h
        exact Option.noConfusion h
      | some flag =>
        rw [h2] at h
        cases h3 : assocGet st.country_currencies d0.country with
        | none =>
          rw [h3] at h
          exact Option.noConfusion h
        | some cur =>
          rw [h3] at h
          cases h4 : assocGet st.continents d0.country with
          | none =>
            rw [h4] at h
            exact Option.noConfusion h
          | some cont =>
            rw [h4] at h
            cases h
            simp [derivedOk, hc, h1, h2, h3, h4]

theorem put_length (c : LruCache) (k : String) (v : IpDetails) :
    (c.put k v).entries.length ≤ c.capacity := by
  unfold LruCache.put
  exact List.length_take_le _ _

theorem cacheUpdate_capacity (c : LruCache) (m : List (String × IpDetails)) :
    (cacheUpdate c m).capacity = c.capacity := by
  induction m generalizing c with
  | nil => rfl
  | cons e rest ih =>
    show (cacheUpdate (c.put e.1 e.2) rest).capacity = c.capacity
    rw [ih]
    rfl

theorem cacheUpdate_length (c : LruCache) (m : List (String × IpDetails))
    (h : c.entries.length ≤ c.capacity) :
    (cacheUpdate c m).entries.length ≤ c.capacity := by
  induction m generalizing c with
  | nil => exact h
  | cons e rest ih =>
    show (cacheUpdate (c.put e.1 e.2) rest).entries.length ≤ c.capacity
    exact ih (c.put e.1 e.2) (put_length c e.1 e.2)

theorem lookup_ok_inv (st : IpInfo) (transport : List String → BatchResponse)
    (ips : List String) {r : List (String × IpDetails)} {st2 : IpInfo}
    (hok : st.lookup transport ips = some (Except.ok r, st2)) :
    ∃ m enriched, transport (partition st.cache ips).2.1 = BatchResponse.records m ∧
      enrichAll st m = some enriched ∧
      r = mergeHits (partition st.cache ips).1 enriched ∧
      st2 = { st with cache := cacheUpdate (partition st.cache ips).2.2 enriched } := by
  simp only [IpInfo.lookup] at hok
  cases htr : transport (partition st.cache ips).2.1 with
  | transportErr =>
    simp only [htr] at hok
    exact Except.noConfusion (congrArg Prod.fst (Option.some.inj hok))
  | tooManyRequests =>
    simp only [htr] at hok
    exact Except.noConfusion (congrArg Prod.fst (Option.some.inj hok))
  | httpError status =>
    simp only [htr] at hok
    exact Except.noConfusion (congrArg Prod.fst (Option.some.inj hok))
  | parseError =>
    simp only [htr] at hok
    exact Except.noConfusion (congrArg Prod.fst (Option.some.inj hok))
  | errorBody msg =>
    simp only [htr] at hok
    exact Except.noConfusion (congrArg Prod.fst (Option.some.inj hok))
  | records m =>
    simp only [htr] at hok
    cases he : enrichAll st m with
    | none =>
      simp only [he] at hok
      exact Option.noConfusion hok
    | some enriched =>
      simp only [he] at hok
      have hp := Option.some.inj hok
      refine ⟨m, enriched, rfl, he, ?_, ?_⟩
      · exact (Except.ok.inj (congrArg Prod.fst hp)).symm
      · exact (congrArg Prod.snd hp).symm

theorem lookup_error_inv (st : IpInfo) (transport : List String → BatchResponse)
    (ips : List String) {e : IpError} {st2 : IpInfo}
    (herr : st.lookup transport ips = some (Except.error e, st2)) :
    st2 = { st with cache := (partition st.cache ips).2.2 } := by
  simp only [IpInfo.lookup] at herr
  cases htr : transport (partition st.cache ips).2.1 with
  | transportErr =>
    simp only [htr] at herr
    exact (congrArg Prod.snd (Option.some.inj herr)).symm
  | tooManyRequests =>
    simp only [htr] at herr
    exact (congrArg Prod.snd (Option.some.inj herr)).symm
  | httpError status =>
    simp only [htr] at herr
    exact (congrArg Prod.snd (Option.some.inj herr)).symm
  | parseError =>
    simp only [htr] at herr
    exact (congrArg Prod.snd (Option.some.inj herr)).symm
  | errorBody msg =>
    simp only [htr] at herr
    exact (congrArg Prod.snd (Option.some.inj herr)).symm
  | records m =>
    simp only [htr] at herr
    cases he : enrichAll st m with
    | none =>
      simp only [he] at herr
      exact Option.noConfusion herr
    | some enriched =>
      simp only [he] at herr
      exact Except.noConfusion (congrArg Prod.fst (Option.some.inj herr))

theorem hits_mem_of_partition {cache : LruCache} {ips : List String} {h : IpDetails}
    (hm : h ∈ (partition cache ips).1) : ∃ b ∈ ips, cache.peek b = some h := by
  rw [partition_hits] at hm
  exact List.mem_filterMap.mp hm

theorem peek_ip {c : LruCache} (hik : cacheIpKey c) {a : String} {v : IpDetails}
    (h : c.peek a = some v) : v.ip = a :=
  hik (a, v) (assocGet_mem h)

theorem lookup_hit_value {st : IpInfo} {transport : List String → BatchResponse}
    {ips : List String} {a : String} {v : IpDetails}
    (hik : cacheIpKey st.cache)
    (hpk : st.cache.peek a = some v) (hin : a ∈ ips)
    {r : List (String × IpDetails)} {st2 : IpInfo}
    (hok : st.lookup transport ips = some (Except.ok r, st2)) :
    assocGet r a = some v := by
  rcases lookup_ok_inv st transport ips hok with ⟨m, enriched, htr, he, hr, hst⟩
  subst hr
  apply mergeHits_get_of_ip
  · intro h hm hip
    rcases hits_mem_of_partition hm with ⟨b, hb, hpb⟩
    have hba : b = a := by
      have h1 := peek_ip hik hpb
      rw [hip] at h1
      exact h1.symm
    subst hba
    exact Option.some.inj (hpb.symm.trans hpk)
  · refine ⟨v, ?_, peek_ip hik hpk⟩
    rw [partition_hits]
    exact List.mem_filterMap.mpr ⟨a, hin, hpk⟩

theorem hits_ip_exists_iff {cache : LruCache} (hik : cacheIpKey cache)
    (ips : List String) (a : String) :
    (∃ h ∈ (partition cache ips).1, IpDetails.ip h = a) ↔
      (a ∈ ips ∧ (cache.peek a).isSome = true) := by
  constructor
  · rintro ⟨h, hm, hip⟩
    rcases hits_mem_of_partition hm with ⟨b, hb, hpb⟩
    have h1 := peek_ip hik hpb
    rw [hip] at h1
    subst h1
    refine ⟨hb, ?_⟩
    rw [hpb]
    rfl
  · rintro ⟨hin, hsome⟩
    rcases Option.isSome_iff_exists.mp hsome with ⟨v, hv⟩
    refine ⟨v, ?_, peek_ip hik hv⟩
    rw [partition_hits]
    exact List.mem_filterMap.mpr ⟨a, hin, hv⟩

theorem mergeHits_mem {hits : List IpDetails} {base : List (String × IpDetails)}
    {x : String × IpDetails} (h : x ∈ mergeHits hits base) :
    (∃ h0 ∈ hits, x = (IpDetails.ip h0, h0)) ∨ x ∈ base := by
  induction hits generalizing base with
  | nil => exact Or.inr h
  | cons h0 t ih =>
    have hstep : x ∈ mergeHits t (mapInsert base h0.ip h0) := h
    rcases ih hstep with ⟨h1, hm, hx⟩ | hbase
    · exact Or.inl ⟨h1, List.mem_cons_of_mem _ hm, hx⟩
    · rcases List.mem_cons.mp hbase with hx | hx2
      · exact Or.inl ⟨h0, List.mem_cons_self _ _, hx⟩
      · exact Or.inr (mem_assocRemove hx2)

/-- C1: when lookup returns successfully against a response whose key set
equals the posted miss list, the returned mapping has exactly the distinct
requested addresses as keys, each cache-hit address is mapped to its cached
record, and each missed address is mapped to the enrichment of its network
record. -/
theorem C1_result_keyset (st : IpInfo) (transport : List String → BatchResponse)
    (ips : List String) (m r : List (String × IpDetails)) (st2 : IpInfo)
    (hik : cacheIpKey st.cache)
    (htr : transport (partition st.cache ips).2.1 = BatchResponse.records m)
    (hkeys : ∀ b, b ∈ mapKeys m ↔ b ∈ (partition st.cache ips).2.1)
    (hok : st.lookup transport ips = some (Except.ok r, st2)) :
    (∀ a, a ∈ mapKeys r ↔ a ∈ ips) ∧
    (∀ a v, st.cache.peek a = some v → a ∈ ips → assocGet r a = some v) ∧
    (∀ a v, st.cache.peek a = none → assocGet m a = some v →
      ∃ d, enrichOne st v = some d ∧ assocGet r a = some d) := by
  rcases lookup_ok_inv st transport ips hok with ⟨m2, enriched, htr2, he, hr, hst⟩
  rw [htr] at htr2
  have hm2 : m = m2 := BatchResponse.records.inj htr2
  subst hm2
  refine ⟨?_, ?_, ?_⟩
  · intro a
    rw [hr, ← assocGet_isSome_iff, mergeHits_get_isSome, hits_ip_exists_iff hik,
        assocGet_isSome_iff, enrichAll_keys st he, hkeys a, partition_misses,
        List.mem_filter]
    cases hpa : st.cache.peek a <;> simp [hpa]
  · intro a v hv hin
    exact lookup_hit_value hik hv hin hok
  · intro a v hpnone hma
    have hnohit : ∀ h ∈ (partition st.cache ips).1, IpDetails.ip h ≠ a := by
      intro h hm0 hip
      rcases hits_mem_of_partition hm0 with ⟨b, hb, hpb⟩
      have h1 := peek_ip hik hpb
      rw [hip] at h1
      subst h1
      rw [hpb] at hpnone
      exact Option.noConfusion hpnone
    have hge : assocGet enriched a = (assocGet m a).bind (enrichOne st) :=
      enrichAll_get st he a
    rw [hma] at hge
    have hge2 : assocGet enriched a = enrichOne st v := hge
    cases hd : enrichOne st v with
    | none =>
      rw [hd] at hge2
      have h1 : a ∈ mapKeys m := (assocGet_isSome_iff m a).mp (by rw [hma]; rfl)
      have h2 : a ∈ mapKeys enriched := by
        rw [enrichAll_keys st he]
        exact h1
      have h3 := (assocGet_isSome_iff enriched a).mpr h2
      rw [hge2] at h3
      exact Bool.noConfusion h3
    | some d =>
      rw [hd] at hge2
      refine ⟨d, rfl, ?_⟩
      rw [hr, mergeHits_get_of_not_ip _ _ _ hnohit]
      exact hge2

/-- C2 amended: lookup performs the network round-trip unconditionally, even
when every requested address is a cache hit and the miss list is empty; when
the transport answers the empty miss list with an empty record set, the call
succeeds and returns the cached value of every requested address. -/
theorem C2_cache_hit_roundtrip (st : IpInfo) (transport : List String → BatchResponse)
    (ips : List String)
    (hik : cacheIpKey st.cache)
    (hall : ∀ a ∈ ips, (st.cache.peek a).isSome = true)
    (hdeg : transport (partition st.cache ips).2.1 = BatchResponse.records []) :
    st.lookup transport ips =
      some (Except.ok (mergeHits (partition st.cache ips).1 []),
        { st with cache := (partition st.cache ips).2.2 }) ∧
    (∀ a v, st.cache.peek a = some v → a ∈ ips →
      assocGet (mergeHits (partition st.cache ips).1 []) a = some v) := by
  have hok : st.lookup transport ips =
      some (Except.ok (mergeHits (partition st.cache ips).1 []),
        { st with cache := (partition st.cache ips).2.2 }) := by
    simp only [IpInfo.lookup, hdeg]
    rfl
  refine ⟨hok, ?_⟩
  intro a v hv hin
  exact lookup_hit_value hik hv hin hok

/-- C2 counterexample: a lookup whose every requested address is a cache hit
still consults the transport, so it can fail with a transport error instead
of succeeding without a network call as the claim states. -/
theorem C2_counterexample :
    (stC1.cache.peek "8.8.8.8").isSome = true ∧
    stC1.lookup trFail ["8.8.8.8"] =
      some (Except.error ⟨IpErrorKind.TransportError, none⟩, stC1) :=
  ⟨rfl, rfl⟩

/-- C3: in a successful lookup over raw wire records, every record of the
returned mapping satisfies the derived-field invariant: the derived fields
are populated exactly when country is non-empty, they agree with the
reference tables, and is-EU means membership of the code in the EU set. -/
theorem C3_derived_field_invariant (st : IpInfo) (transport : List String → BatchResponse)
    (ips : List String) (m r : List (String × IpDetails)) (st2 : IpInfo)
    (hcache : ∀ e ∈ st.cache.entries, derivedOk st (Prod.snd e))
    (htr : transport (partition st.cache ips).2.1 = BatchResponse.records m)
    (hraw : ∀ e ∈ m, rawRecord (Prod.snd e))
    (hok : st.lookup transport ips = some (Except.ok r, st2)) :
    (∀ e ∈ r, derivedOk st (Prod.snd e)) ∧
    (∀ e ∈ r, (Prod.snd e).country ≠ "" →
      ((Prod.snd e).is_eu = some true ↔ (Prod.snd e).country ∈ st.eu)) := by
  rcases lookup_ok_inv st transport ips hok with ⟨m2, enriched, htr2, he, hr, hst⟩
  rw [htr] at htr2
  have hm2 : m = m2 := BatchResponse.records.inj htr2
  subst hm2
  subst hr
  have hmain : ∀ e ∈ mergeHits (partition st.cache ips).1 enriched,
      derivedOk st (Prod.snd e) := by
    intro e he2
    rcases mergeHits_mem he2 with ⟨h, hm0, rfl⟩ | hbase
    · rcases hits_mem_of_partition hm0 with ⟨b, hb, hpb⟩
      exact hcache (b, h) (assocGet_mem hpb)
    · rcases enrichAll_mem st he hbase with ⟨w, hw, hwe⟩
      exact enrichOne_derivedOk st (hraw (e.1, w) hw) hwe
  refine ⟨hmain, ?_⟩
  intro e he2 hc
  have hd := hmain e he2
  unfold derivedOk at hd
  rw [if_neg hc] at hd
  rw [hd.2.2.1]
  constructor
  · intro h1
    have h2 : st.eu.contains (Prod.snd e).country = true := Option.some.inj h1
    exact List.elem_iff.mp h2
  · intro h1
    have h2 : st.eu.contains (Prod.snd e).country = true := List.elem_iff.mpr h1
    rw [h2]

/-- C4 amended: a failing lookup performs no cache insertion or value
update (the key-to-value contents and the capacity are unchanged) and the
reference tables are untouched; the caller receives a single failure value
with no partial mapping. Probing hits during the partition step may still
reorder recency even on a failing call, which is why content equality
rather than state equality holds. -/
theorem C4_failure_frame (st : IpInfo) (transport : List String → BatchResponse)
    (ips : List String) (e : IpError) (st2 : IpInfo)
    (herr : st.lookup transport ips = some (Except.error e, st2)) :
    (∀ a, st2.cache.peek a = st.cache.peek a) ∧
    st2.cache.capacity = st.cache.capacity ∧
    st2.countries = st.countries ∧ st2.eu = st.eu := by
  have h := lookup_error_inv st transport ips herr
  subst h
  exact ⟨fun a => partition_peek st.cache ips a, partition_capacity st.cache ips, rfl, rfl⟩

/-- C4 counterexample: a failing lookup that probed a cache hit leaves the
cache in a different state than before the call, because the hit was moved
to the front of the recency order; the contents are equal but the cache is
not exactly as it was. -/
theorem C4_counterexample :
    st2C1.lookup trFail ["8.8.8.8"] =
      some (Except.error ⟨IpErrorKind.TransportError, none⟩, stC4after) ∧
    stC4after.cache ≠ st2C1.cache := by
  constructor
  · rfl
  · decide

/-- C5: a response with HTTP status 429 makes the whole lookup fail with the
rate-limit error kind, leaving the cache contents driven only by the
partition step, and that kind is distinct from the generic request error
kind. -/
theorem C5_rate_limit_distinct (st : IpInfo) (ips : List String) :
    st.lookup (fun _ => BatchResponse.tooManyRequests) ips =
      some (Except.error ⟨IpErrorKind.RateLimitExceededError, none⟩,
        { st with cache := (partition st.cache ips).2.2 }) ∧
    IpErrorKind.RateLimitExceededError ≠ IpErrorKind.IpRequestError := by
  constructor
  · simp only [IpInfo.lookup]
  · decide

/-- C6: a successful-status response whose body carries an explicit error
field makes lookup fail with a request error carrying exactly that
message. -/
theorem C6_error_body_message (st : IpInfo) (ips : List String) (msg : String) :
    st.lookup (fun _ => BatchResponse.errorBody msg) ips =
      some (Except.error ⟨IpErrorKind.IpRequestError, some msg⟩,
        { st with cache := (partition st.cache ips).2.2 }) := by
  simp only [IpInfo.lookup]

/-- C7: the cache never exceeds its configured capacity across any lookup,
and in a concrete capacity-two run: resolving 1.1.1.1 then 2.2.2.2, then
hitting 1.1.1.1 (which bumps its recency), then resolving 3.3.3.3 evicts
the least recently used entry 2.2.2.2 while keeping 1.1.1.1, and a
subsequent lookup of the evicted address is a cache miss. -/
theorem C7_lru_capacity_eviction :
    (∀ (st : IpInfo) (transport : List String → BatchResponse) (ips : List String)
        (res : Except IpError (List (String × IpDetails))) (st2 : IpInfo),
      st.cache.entries.length ≤ st.cache.capacity →
      st.lookup transport ips = some (res, st2) →
      st2.cache.entries.length ≤ st2.cache.capacity ∧
        st2.cache.capacity = st.cache.capacity) ∧
    stK.lookup trA ["1.1.1.1"] = some (Except.ok [("1.1.1.1", enrA)], stKA) ∧
    stKA.lookup trB ["2.2.2.2"] = some (Except.ok [("2.2.2.2", enrB)], stKAB) ∧
    stKAB.lookup trEmpty ["1.1.1.1"] = some (Except.ok [("1.1.1.1", enrA)], stKABbump) ∧
    stKABbump.lookup trC ["3.3.3.3"] = some (Except.ok [("3.3.3.3", enrC)], stKC) ∧
    stKC.cache.peek "2.2.2.2" = none ∧
    stKC.cache.peek "1.1.1.1" = some enrA ∧
    (partition stKC.cache ["2.2.2.2"]).2.1 = ["2.2.2.2"] := by
  refine ⟨?_, rfl, rfl, rfl, rfl, rfl, rfl, rfl⟩
  intro st transport ips res st2 hlen hok
  cases res with
  | error e =>
    have h := lookup_error_inv st transport ips hok
    subst h
    constructor
    · show (partition st.cache ips).2.2.entries.length ≤ (partition st.cache ips).2.2.capacity
      rw [partition_capacity]
      exact le_trans (partition_length st.cache ips) hlen
    · show (partition st.cache ips).2.2.capacity = st.cache.capacity
      exact partition_capacity st.cache ips
  | ok r =>
    rcases lookup_ok_inv st transport ips hok with ⟨m, enriched, htr, he, hr, hst⟩
    subst hst
    constructor
    · show (cacheUpdate (partition st.cache ips).2.2 enriched).entries.length ≤
        (cacheUpdate (partition st.cache ips).2.2 enriched).capacity
      have hplen : (partition st.cache ips).2.2.entries.length ≤
          (partition st.cache ips).2.2.capacity := by
        rw [partition_capacity]
        exact le_trans (partition_length st.cache ips) hlen
      have h2 := cacheUpdate_length (partition st.cache ips).2.2 enriched hplen
      rw [cacheUpdate_capacity]
      exact h2
    · show (cacheUpdate (partition st.cache ips).2.2 enriched).capacity = st.cache.capacity
      rw [cacheUpdate_capacity, partition_capacity]

/-- C8: an address that is a cache hit at the start of a lookup and is not
among the keys of the decoded response is returned, on success, with a value
identical to its pre-call cached value; hit entries are never re-validated
or re-enriched during the call. -/
theorem C8_hit_read_only (st : IpInfo) (transport : List String → BatchResponse)
    (ips : List String) (a : String) (v : IpDetails)
    (m r : List (String × IpDetails)) (st2 : IpInfo)
    (hik : cacheIpKey st.cache)
    (hpk : st.cache.peek a = some v)
    (hin : a ∈ ips)
    (htr : transport (partition st.cache ips).2.1 = BatchResponse.records m)
    (hnot : a ∉ mapKeys m)
    (hok : st.lookup transport ips = some (Except.ok r, st2)) :
    assocGet r a = some v :=
  lookup_hit_value hik hpk hin hok

/-- C9: enrichment of a record succeeds exactly when its country is empty or
present in all four reference tables; a non-empty country code absent from
any table is a panic (modelled as none), and a lookup over decoded records
panics exactly when one of its records fails enrichment, so no partially
enriched record is ever produced. -/
theorem C9_enrichment_panic (st : IpInfo) (d : IpDetails) (m : List (String × IpDetails))
    (ips : List String) :
    ((enrichOne st d).isSome = true ↔
      (d.country = "" ∨
        ((assocGet st.countries d.country).isSome = true ∧
         (assocGet st.country_flags d.country).isSome = true ∧
         (assocGet st.country_currencies d.country).isSome = true ∧
         (assocGet st.continents d.country).isSome = true))) ∧
    (st.lookup (fun _ => BatchResponse.records m) ips = none ↔
      ∃ e ∈ m, enrichOne st (Prod.snd e) = none) := by
  constructor
  · unfold enrichOne
    by_cases hc : d.country = ""
    · simp [hc]
    · rw [if_neg hc]
      cases h1 : assocGet st.countries d.country <;>
        cases h2 : assocGet st.country_flags d.country <;>
          cases h3 : assocGet st.country_currencies d.country <;>
            cases h4 : assocGet st.continents d.country <;>
              simp [hc, h1, h2, h3, h4]
  · cases he : enrichAll st m with
    | none =>
      constructor
      · intro _
        exact (enrichAll_eq_none_iff st m).mp he
      · intro _
        simp [IpInfo.lookup, he]
    | some enr =>
      constructor
      · intro hcon
        simp [IpInfo.lookup, he] at hcon
      · intro hex
        rw [(enrichAll_eq_none_iff st m).mpr hex] at he
        exact Option.noConfusion he

/-- C10 amended: construction surfaces a failing HTTP-client build as its
failure value, but a zero cache capacity or a malformed or unreadable
reference dataset aborts construction with a panic (modelled as none) at
construction time rather than returning a configuration error value or
deferring the problem to lookup; with a valid client, a positive capacity
and well-formed datasets it returns the engine with an empty cache of the
configured capacity. -/
theorem C10_new_construction (config : IpInfoConfig) (inp : NewInputs)
    (cs : List (String × String)) (eu : List String)
    (fl : List (String × CountryFlag)) (cu : List (String × CountryCurrency))
    (co : List (String × Continent)) :
    (inp.clientOk = false →
      IpInfo.new config inp = some (Except.error ⟨IpErrorKind.TransportError, none⟩)) ∧
    (inp.clientOk = true → config.cache_size = 0 → IpInfo.new config inp = none) ∧
    (inp.clientOk = true →
      (inp.countries = none ∨ inp.eu = none ∨ inp.country_flags = none ∨
        inp.country_currencies = none ∨ inp.continents = none) →
      IpInfo.new config inp = none) ∧
    (inp.clientOk = true → config.cache_size ≠ 0 → inp.countries = some cs →
      inp.eu = some eu → inp.country_flags = some fl → inp.country_currencies = some cu →
      inp.continents = some co →
      IpInfo.new config inp = some (Except.ok
        { token := config.token, cache := ⟨config.cache_size, []⟩, countries := cs,
          eu := eu, country_flags := fl, country_currencies := cu, continents := co })) := by
  refine ⟨?_, ?_, ?_, ?_⟩
  · intro hc
    simp [IpInfo.new, hc]
  · intro hc hz
    simp [IpInfo.new, hc, hz]
  · intro hc hbad
    by_cases hz : config.cache_size = 0
    · simp [IpInfo.new, hc, hz]
    · cases h1 : inp.countries <;> cases h2 : inp.eu <;> cases h3 : inp.country_flags <;>
        cases h4 : inp.country_currencies <;> cases h5 : inp.continents <;>
        simp_all [IpInfo.new]
  · intro hc hz h1 h2 h3 h4 h5
    simp [IpInfo.new, hc, hz, h1, h2, h3, h4, h5]

/-- C10 counterexample: with a zero cache capacity and well-formed datasets,
or with a positive capacity and a malformed countries dataset, construction
panics (none) and in particular does not fail with a configuration error as
its failure value. -/
theorem C10_counterexample :
    IpInfo.new cfg0 inpGood = none ∧ IpInfo.new cfgOk inpBadCountries = none :=
  ⟨rfl, rfl⟩

/-- C1 witness: a concrete run with one cache hit and one miss. -/
theorem C1_witness :
    cacheIpKey stC1.cache ∧
    stC1.lookup trC1 ["8.8.8.8", "9.9.9.9"] = some (Except.ok rC1, st2C1) ∧
    ("8.8.8.8" ∈ mapKeys rC1 ↔ "8.8.8.8" ∈ ["8.8.8.8", "9.9.9.9"]) ∧
    ("7.7.7.7" ∈ mapKeys rC1 ↔ "7.7.7.7" ∈ ["8.8.8.8", "9.9.9.9"]) ∧
    assocGet rC1 "8.8.8.8" = some enrichedUS ∧
    assocGet rC1 "9.9.9.9" = some enrichedDE := by
  have h := C1_result_keyset stC1 trC1 ["8.8.8.8", "9.9.9.9"] mC1 rC1 st2C1
    (by decide) rfl (fun b => Iff.rfl) rfl
  refine ⟨by decide, rfl, h.1 "8.8.8.8", h.1 "7.7.7.7", ?_, ?_⟩
  · exact h.2.1 "8.8.8.8" enrichedUS rfl (by decide)
  · rcases h.2.2 "9.9.9.9" rawDE rfl rfl with ⟨d, hd1, hd2⟩
    have hdd : enrichedDE = d :=
      Option.some.inj ((rfl : enrichOne stC1 rawDE = some enrichedDE).symm.trans hd1)
    rw [hdd]
    exact hd2

/-- C2 witness: a lookup whose single requested address is a cache hit,
run against a transport that answers the empty miss list with an empty
record set, succeeds and returns the cached value. -/
theorem C2_witness :
    cacheIpKey stC1.cache ∧ (stC1.cache.peek "8.8.8.8").isSome = true ∧
    stC1.lookup trEmpty ["8.8.8.8"] = some (Except.ok rC2, stC1) ∧
    assocGet rC2 "8.8.8.8" = some enrichedUS := by
  have h := C2_cache_hit_roundtrip stC1 trEmpty ["8.8.8.8"] (by decide) (by decide) rfl
  refine ⟨by decide, rfl, ?_, ?_⟩
  · exact h.1
  · exact h.2 "8.8.8.8" enrichedUS rfl (by decide)

/-- C3 witness: both records of the concrete run of C1 satisfy the
derived-field invariant. -/
theorem C3_witness :
    derivedOk stC1 enrichedDE ∧ derivedOk stC1 enrichedUS ∧
    (enrichedDE.is_eu = some true ↔ enrichedDE.country ∈ stC1.eu) := by
  have h := C3_derived_field_invariant stC1 trC1 ["8.8.8.8", "9.9.9.9"] mC1 rC1 st2C1
    (by decide) rfl (by decide) rfl
  exact ⟨h.1 ("9.9.9.9", enrichedDE) (by decide), h.1 ("8.8.8.8", enrichedUS) (by decide),
    h.2 ("9.9.9.9", enrichedDE) (by decide) (by decide)⟩

/-- C4 witness: the concrete failing call of the C4 counterexample keeps the
cache contents and capacity unchanged. -/
theorem C4_witness :
    st2C1.lookup trFail ["8.8.8.8"] =
      some (Except.error ⟨IpErrorKind.TransportError, none⟩, stC4after) ∧
    stC4after.cache.peek "8.8.8.8" = st2C1.cache.peek "8.8.8.8" ∧
    stC4after.cache.peek "9.9.9.9" = st2C1.cache.peek "9.9.9.9" ∧
    stC4after.cache.capacity = st2C1.cache.capacity := by
  have h := C4_failure_frame st2C1 trFail ["8.8.8.8"]
    ⟨IpErrorKind.TransportError, none⟩ stC4after rfl
  exact ⟨rfl, h.1 "8.8.8.8", h.1 "9.9.9.9", h.2.1⟩

/-- C7 witness: the capacity bound instantiated on the first step of the
concrete scenario. -/
theorem C7_witness :
    stK.cache.entries.length ≤ stK.cache.capacity ∧
    stKA.cache.entries.length ≤ stKA.cache.capacity ∧
    stKA.cache.capacity = stK.cache.capacity := by
  have h := C7_lru_capacity_eviction.1 stK trA ["1.1.1.1"]
    (Except.ok [("1.1.1.1", enrA)]) stKA (by decide) rfl
  exact ⟨by decide, h.1, h.2⟩

/-- C8 witness: the cache-hit address of the concrete C1 run is returned
with its pre-call cached value. -/
theorem C8_witness :
    cacheIpKey stC1.cache ∧ stC1.cache.peek "8.8.8.8" = some enrichedUS ∧
    ("8.8.8.8" ∈ mapKeys mC1 → False) ∧
    stC1.lookup trC1 ["8.8.8.8", "9.9.9.9"] = some (Except.ok rC1, st2C1) ∧
    assocGet rC1 "8.8.8.8" = some enrichedUS := by
  refine ⟨by decide, rfl, by decide, rfl, ?_⟩
  exact C8_hit_read_only stC1 trC1 ["8.8.8.8", "9.9.9.9"] "8.8.8.8" enrichedUS mC1 rC1 st2C1
    (by decide) rfl (by decide) rfl (by decide) rfl

/-- C10 witness: construction panics on a zero capacity and on a malformed
continents dataset, and succeeds with an empty cache of the configured
capacity on valid inputs. -/
theorem C10_witness :
    inpGood.clientOk = true ∧ cfg0.cache_size = 0 ∧ IpInfo.new cfg0 inpGood = none ∧
    inpBadContinents.continents = none ∧ IpInfo.new cfgOk inpBadContinents = none ∧
    cfgOk.cache_size ≠ 0 ∧ IpInfo.new cfgOk inpGood = some (Except.ok stNew) := by
  refine ⟨rfl, rfl, ?_, rfl, ?_, by decide, ?_⟩
  · exact (C10_new_construction cfg0 inpGood [] [] [] [] []).2.1 rfl rfl
  · exact (C10_new_construction cfgOk inpBadContinents [] [] [] [] []).2.2.1 rfl
      (Or.inr (Or.inr (Or.inr (Or.inr rfl))))
  · exact (C10_new_construction cfgOk inpGood [("US", "United States")] [] [] [] []).2.2.2
      rfl (by decide) rfl rfl rfl rfl rfl
